import Mathlib

set_option maxHeartbeats 1000000

/-!
Shallow embedding of the zonal raster analytics pipeline of this repository
(src/graph.py and src/rasterimage.py).  Floating-point raster samples are
modelled by `FVal`: either a non-finite IEEE value (NaN, +inf, -inf) or a
finite value represented as an exact rational.  Dates are modelled as
integers (days), since every date in the pipeline is truncated to midnight.
-/

/-- Model of one raster sample: NaN, positive infinity, negative infinity,
or a finite value (an exact rational). -/
inductive FVal : Type
  | nan : FVal
  | inf : FVal
  | ninf : FVal
  | fin : ℚ → FVal
  deriving DecidableEq, Repr

/-- Round a rational to the nearest integer, ties to even (the rounding
rule of Python's built-in `round`). -/
def roundEvenQ (q : ℚ) : ℤ :=
  let n := Int.fdiv q.num q.den
  let r := q - n
  if r < 1 / 2 then n
  else if 1 / 2 < r then n + 1
  else if n % 2 = 0 then n else n + 1

/-- Python `round(x, 3)`: round to three decimal places (scale by 1000,
round to the nearest integer, scale back). -/
def round3 (q : ℚ) : ℚ := (roundEvenQ (q * 1000) : ℤ) / 1000

/-- Arithmetic mean of a list of rationals (`np.nanmean` applied to an array
that contains no NaN); 0 on the empty list. -/
def meanQ (l : List ℚ) : ℚ := l.sum / l.length

/-- The filter applied by `_compute_mean` in src/graph.py (lines 110-111):
keep the finite samples (`np.isfinite`) that are `< 1e20`. -/
def filteredValues (values : List FVal) : List ℚ :=
  values.filterMap fun x =>
    match x with
    | FVal.fin q => if q < 10 ^ 20 then some q else none
    | _ => none

/-- Embedding of `_compute_mean` (src/graph.py lines 109-121): filter the
samples, return 0.0 when nothing remains, otherwise apply the per-gas scale
to the mean and round to three decimals. -/
def compute_mean (gas : String) (values : List FVal) : ℚ :=
  let v := filteredValues values
  if v = [] then 0
  else
    let raw := meanQ v
    if gas = "CH4" then round3 (raw / 1000)
    else if gas = "NO2" ∨ gas = "SO2" ∨ gas = "HCHO" then round3 (raw * 1000000)
    else round3 raw

/-- Modelled from the claim's words (not from the source), for comparison
with `filteredValues`: keep the values that are finite, different from the
declared no-data sentinel, and below the large-magnitude threshold. -/
def claimFilteredValues (nodata : ℚ) (values : List FVal) : List ℚ :=
  values.filterMap fun x =>
    match x with
    | FVal.fin q => if q = nodata ∨ 10 ^ 20 ≤ q then none else some q
    | _ => none

/-- C1: counterexample. With a declared no-data sentinel of -9999, the code's
filter keeps the sentinel value (it is finite and below 1e20) so the sentinel
enters the mean, while the claim's filter excludes it. -/
theorem c1_counterexample :
    filteredValues [FVal.fin (-9999), FVal.fin 5] = [-9999, 5] ∧
    claimFilteredValues (-9999) [FVal.fin (-9999), FVal.fin 5] = [5] ∧
    (-9999 : ℚ) ∈ filteredValues [FVal.fin (-9999), FVal.fin 5] := by
  refine ⟨by decide, by decide, by decide⟩

/-- C1 (amended): the values kept by the statistic's filter are exactly the
finite samples strictly below 1e20; the declared no-data sentinel receives
no special treatment. -/
theorem c1_filter_exact (values : List FVal) (q : ℚ) :
    q ∈ filteredValues values ↔ FVal.fin q ∈ values ∧ q < 10 ^ 20 := by
  unfold filteredValues
  rw [List.mem_filterMap]
  constructor
  · rintro ⟨a, ha, hfa⟩
    cases a with
    | fin r =>
      by_cases hr : r < 10 ^ 20
      · simp only [if_pos hr, Option.some.injEq] at hfa
        subst hfa; exact ⟨ha, hr⟩
      · simp [if_neg hr] at hfa
    | nan => simp at hfa
    | inf => simp at hfa
    | ninf => simp at hfa
  · rintro ⟨hmem, hq⟩
    exact ⟨FVal.fin q, hmem, by simp [if_pos hq]⟩

/-- C1: witness instantiating `c1_filter_exact` at a concrete input. -/
theorem c1_filter_exact_witness :
    (5 : ℚ) ∈ filteredValues [FVal.fin 5] ↔
      FVal.fin 5 ∈ [FVal.fin 5] ∧ (5 : ℚ) < 10 ^ 20 :=
  c1_filter_exact [FVal.fin 5] 5

/-- C2: for a non-empty filtered value set, the reported statistic is the
rounded, per-gas-scaled mean: divide by 1000 for CH4, multiply by 1e6 for
NO2/SO2/HCHO, identity for every other gas. -/
theorem c2_gas_scale (gas : String) (values : List FVal)
    (h : filteredValues values ≠ []) :
    compute_mean gas values =
      (if gas = "CH4" then round3 (meanQ (filteredValues values) / 1000)
       else if gas = "NO2" ∨ gas = "SO2" ∨ gas = "HCHO" then
         round3 (meanQ (filteredValues values) * 1000000)
       else round3 (meanQ (filteredValues values))) := by
  simp only [compute_mean, if_neg h]

/-- C2: witness instantiating `c2_gas_scale` on a concrete CH4 input. -/
theorem c2_gas_scale_witness :
    compute_mean "CH4" [FVal.fin 2000] =
      round3 (meanQ (filteredValues [FVal.fin 2000]) / 1000) := by
  have h := c2_gas_scale "CH4" [FVal.fin 2000] (by decide)
  simpa using h

/-- C6: when no values survive the filter, the statistic is exactly 0.0
(`compute_mean` is total: the empty value set is never an error). -/
theorem c6_empty_is_zero (gas : String) (values : List FVal)
    (h : filteredValues values = []) :
    compute_mean gas values = 0 := by
  simp only [compute_mean, if_pos h]

/-- C6: witness instantiating `c6_empty_is_zero` on an input whose samples
are all filtered out (a NaN and a large fill value). -/
theorem c6_empty_is_zero_witness :
    compute_mean "CO" [FVal.nan, FVal.fin (10 ^ 20)] = 0 :=
  c6_empty_is_zero "CO" [FVal.nan, FVal.fin (10 ^ 20)] (by decide)

/-!
Embedding of `_dedupe_by_date` (src/graph.py lines 124-129) and of the
window selection of `make_grafik` (lines 233-267).  Dates in the pipeline
are always truncated to midnight, so a calendar day is modelled as an
integer; raster paths are strings, compared lexicographically exactly as
Python's `sorted` compares them in `_list_tiffs`.
-/

/-- Python dict assignment `d[k] = v`: replace the value of an existing key
in place, otherwise append the new binding at the end. -/
def dictInsert : List (ℤ × String) → ℤ → String → List (ℤ × String)
  | [], k, v => [(k, v)]
  | p :: rest, k, v =>
    if p.1 = k then (k, v) :: rest else p :: dictInsert rest k v

/-- First-match lookup in an association list. -/
def lookupD : List (ℤ × String) → ℤ → Option String
  | [], _ => none
  | p :: rest, k => if p.1 = k then some p.2 else lookupD rest k

/-- Value of the last entry of `l` with key `k`: the value a Python dict
holds for `k` after inserting every entry of `l` in order. -/
def lastValue : List (ℤ × String) → ℤ → Option String
  | [], _ => none
  | p :: rest, k =>
    match lastValue rest k with
    | some v => some v
    | none => if p.1 = k then some p.2 else none

/-- Left-biased choice on options. -/
def orO : Option String → Option String → Option String
  | some v, _ => some v
  | none, b => b

/-- The `by_day` dict of `_dedupe_by_date`: fold the selected (day, path)
pairs into a Python dict. -/
def buildByDay (selected : List (ℤ × String)) : List (ℤ × String) :=
  selected.foldl (fun acc p => dictInsert acc p.1 p.2) []

instance {α β : Type} [LinearOrder α] :
    IsTotal (α × β) (fun a b => a.1 ≤ b.1) :=
  ⟨fun a b => le_total a.1 b.1⟩

instance {α β : Type} [LinearOrder α] :
    IsTrans (α × β) (fun a b => a.1 ≤ b.1) :=
  ⟨fun _ _ _ h₁ h₂ => le_trans h₁ h₂⟩

/-- Embedding of `_dedupe_by_date`: insert every (day, path) pair into a
dict keyed by day, then sort the items by day. -/
def dedupe_by_date (selected : List (ℤ × String)) : List (ℤ × String) :=
  List.insertionSort (fun a b => a.1 ≤ b.1) (buildByDay selected)

theorem lookupD_dictInsert (d : List (ℤ × String)) (k : ℤ) (v : String)
    (k' : ℤ) :
    lookupD (dictInsert d k v) k' = if k' = k then some v else lookupD d k' := by
  induction d with
  | nil =>
    rcases eq_or_ne k' k with rfl | h
    · simp [dictInsert, lookupD]
    · simp [dictInsert, lookupD, h, Ne.symm h]
  | cons p rest ih =>
    simp only [dictInsert]
    by_cases hp : p.1 = k
    · rw [if_pos hp]
      rcases eq_or_ne k' k with rfl | h
      · simp [lookupD]
      · have h1 : ¬(k = k') := fun hh => h hh.symm
        have h2 : ¬(p.1 = k') := fun hh => h (hp ▸ hh).symm
        simp [lookupD, h, h1, h2]
    · rw [if_neg hp]
      rcases eq_or_ne k' k with rfl | h
      · have h2 : ¬(p.1 = k') := hp
        simp [lookupD, h2, ih]
      · by_cases h2 : p.1 = k'
        · simp [lookupD, h2, h]
        · simp [lookupD, h2, ih, h]

theorem lookupD_eq_none_iff (d : List (ℤ × String)) (k : ℤ) :
    lookupD d k = none ↔ k ∉ d.map Prod.fst := by
  induction d with
  | nil => simp [lookupD]
  | cons p rest ih =>
    by_cases hp : p.1 = k
    · simp [lookupD, hp]
    · simp [lookupD, hp, ih, Ne.symm hp]

theorem lastValue_eq_none_iff (d : List (ℤ × String)) (k : ℤ) :
    lastValue d k = none ↔ k ∉ d.map Prod.fst := by
  induction d with
  | nil => simp [lastValue]
  | cons p rest ih =>
    simp only [lastValue]
    cases h : lastValue rest k with
    | some v =>
      have : k ∈ rest.map Prod.fst := by
        by_contra hc
        rw [← ih] at hc
        rw [hc] at h
        cases h
      simp [this]
    | none =>
      rw [h] at ih
      by_cases hp : p.1 = k
      · simp [hp]
      · simp [hp, Ne.symm hp, ih.mp rfl]

theorem lastValue_mem (d : List (ℤ × String)) (k : ℤ) (v : String)
    (h : lastValue d k = some v) : (k, v) ∈ d := by
  induction d with
  | nil => simp [lastValue] at h
  | cons p rest ih =>
    simp only [lastValue] at h
    cases hrec : lastValue rest k with
    | some w =>
      rw [hrec] at h
      injection h with hw
      exact List.mem_cons_of_mem _ (ih (hw ▸ hrec))
    | none =>
      rw [hrec] at h
      by_cases hp : p.1 = k
      · rw [if_pos hp] at h
        injection h with hv
        have : p = (k, v) := by
          obtain ⟨pk, pv⟩ := p
          simp only at hp hv
          rw [hp, hv]
        exact this ▸ List.mem_cons_self _ _
      · rw [if_neg hp] at h
        cases h

theorem lookupD_foldl (l : List (ℤ × String)) :
    ∀ (acc : List (ℤ × String)) (k : ℤ),
      lookupD (l.foldl (fun a p => dictInsert a p.1 p.2) acc) k =
        orO (lastValue l k) (lookupD acc k) := by
  induction l with
  | nil => intro acc k; simp [lastValue, orO]
  | cons p rest ih =>
    intro acc k
    rw [List.foldl_cons, ih]
    simp only [lastValue]
    cases h : lastValue rest k with
    | some v => simp [orO]
    | none =>
      show orO none (lookupD (dictInsert acc p.1 p.2) k)
          = orO (if p.1 = k then some p.2 else none) (lookupD acc k)
      rw [lookupD_dictInsert]
      by_cases hk : p.1 = k
      · rw [if_pos hk, if_pos hk.symm]
        simp [orO]
      · rw [if_neg hk, if_neg (Ne.symm hk)]

theorem lookupD_buildByDay (selected : List (ℤ × String)) (k : ℤ) :
    lookupD (buildByDay selected) k = lastValue selected k := by
  have h := lookupD_foldl selected [] k
  simp only [lookupD] at h
  rw [buildByDay, h]
  cases lastValue selected k <;> simp [orO]

theorem mem_keys_dictInsert (d : List (ℤ × String)) (k : ℤ) (v : String)
    (k' : ℤ) :
    k' ∈ (dictInsert d k v).map Prod.fst ↔ k' = k ∨ k' ∈ d.map Prod.fst := by
  induction d with
  | nil => simp [dictInsert]
  | cons p rest ih =>
    by_cases hp : p.1 = k
    · simp only [dictInsert, if_pos hp, List.map_cons, List.mem_cons]
      rw [hp]
      tauto
    · simp only [dictInsert, if_neg hp, List.map_cons, List.mem_cons, ih]
      tauto

theorem nodupKeys_dictInsert (d : List (ℤ × String)) (k : ℤ) (v : String)
    (h : (d.map Prod.fst).Nodup) :
    ((dictInsert d k v).map Prod.fst).Nodup := by
  induction d with
  | nil => simp [dictInsert]
  | cons p rest ih =>
    rw [List.map_cons, List.nodup_cons] at h
    by_cases hp : p.1 = k
    · simp only [dictInsert, if_pos hp, List.map_cons, List.nodup_cons]
      exact ⟨hp ▸ h.1, h.2⟩
    · simp only [dictInsert, if_neg hp, List.map_cons, List.nodup_cons]
      refine ⟨?_, ih h.2⟩
      intro hmem
      rcases (mem_keys_dictInsert rest k v p.1).mp hmem with rfl | hmem'
      · exact hp rfl
      · exact h.1 hmem'

theorem nodupKeys_buildByDay (selected : List (ℤ × String)) :
    ((buildByDay selected).map Prod.fst).Nodup := by
  rw [buildByDay]
  have h : ∀ (l acc : List (ℤ × String)), (acc.map Prod.fst).Nodup →
      ((l.foldl (fun a p => dictInsert a p.1 p.2) acc).map Prod.fst).Nodup := by
    intro l
    induction l with
    | nil => intro acc h; simpa using h
    | cons p rest ih =>
      intro acc h
      exact ih _ (nodupKeys_dictInsert _ _ _ h)
  exact h selected [] (by simp)

theorem mem_iff_lookupD (d : List (ℤ × String))
    (h : (d.map Prod.fst).Nodup) (k : ℤ) (v : String) :
    (k, v) ∈ d ↔ lookupD d k = some v := by
  induction d with
  | nil => simp [lookupD]
  | cons p rest ih =>
    obtain ⟨pk, pv⟩ := p
    rw [List.map_cons, List.nodup_cons] at h
    by_cases hp : pk = k
    · subst hp
      constructor
      · intro hm
        rcases List.mem_cons.mp hm with heq | hmem
        · injection heq with h1 h2
          simp [lookupD, h2]
        · exact absurd (List.mem_map.mpr ⟨(pk, v), hmem, rfl⟩) h.1
      · intro hl
        simp only [lookupD, if_pos rfl] at hl
        injection hl with hv
        exact hv ▸ List.mem_cons_self _ _
    · simp only [lookupD, if_neg hp]
      constructor
      · intro hm
        rcases List.mem_cons.mp hm with heq | hmem
        · injection heq with h1 h2
          exact absurd h1.symm hp
        · exact (ih h.2).mp hmem
      · intro hl
        exact List.mem_cons_of_mem _ ((ih h.2).mpr hl)

theorem pairwise_lt_of_le_ne (l : List (ℤ × String))
    (h1 : List.Pairwise (fun a b => a.1 ≤ b.1) l)
    (h2 : (l.map Prod.fst).Nodup) :
    List.Pairwise (fun a b => a.1 < b.1) l := by
  induction l with
  | nil => exact List.Pairwise.nil
  | cons p rest ih =>
    rw [List.pairwise_cons] at h1 ⊢
    rw [List.map_cons, List.nodup_cons] at h2
    refine ⟨fun b hb => lt_of_le_of_ne (h1.1 b hb) ?_, ih h1.2 h2.2⟩
    intro hEq
    exact h2.1 (hEq ▸ List.mem_map.mpr ⟨b, hb, rfl⟩)

theorem nodupKeys_dedupe (selected : List (ℤ × String)) :
    ((dedupe_by_date selected).map Prod.fst).Nodup := by
  have hperm := List.perm_insertionSort
    (fun a b : ℤ × String => a.1 ≤ b.1) (buildByDay selected)
  exact ((hperm.map Prod.fst).nodup_iff).mpr (nodupKeys_buildByDay selected)

theorem pairwise_lt_dedupe (selected : List (ℤ × String)) :
    List.Pairwise (fun a b => a.1 < b.1) (dedupe_by_date selected) := by
  have hsort := List.sorted_insertionSort
    (fun a b : ℤ × String => a.1 ≤ b.1) (buildByDay selected)
  exact pairwise_lt_of_le_ne _ hsort (nodupKeys_dedupe selected)

theorem mem_dedupe_iff_lastValue (selected : List (ℤ × String)) (d : ℤ)
    (p : String) :
    (d, p) ∈ dedupe_by_date selected ↔ lastValue selected d = some p := by
  have hperm := List.perm_insertionSort
    (fun a b : ℤ × String => a.1 ≤ b.1) (buildByDay selected)
  rw [dedupe_by_date, hperm.mem_iff,
    mem_iff_lookupD _ (nodupKeys_buildByDay selected), lookupD_buildByDay]

theorem keys_dedupe_iff (selected : List (ℤ × String)) (d : ℤ) :
    d ∈ (dedupe_by_date selected).map Prod.fst ↔
      d ∈ selected.map Prod.fst := by
  have hperm := List.perm_insertionSort
    (fun a b : ℤ × String => a.1 ≤ b.1) (buildByDay selected)
  rw [dedupe_by_date, (hperm.map Prod.fst).mem_iff]
  constructor
  · intro h
    by_contra hc
    rw [← lastValue_eq_none_iff, ← lookupD_buildByDay] at hc
    exact ((lookupD_eq_none_iff _ _).mp hc) h
  · intro h
    by_contra hc
    rw [← lookupD_eq_none_iff, lookupD_buildByDay,
      lastValue_eq_none_iff] at hc
    exact hc h

theorem lastValue_max (selected : List (ℤ × String))
    (h : List.Pairwise (fun a b => a.2 < b.2) selected) (k : ℤ) (v : String)
    (hl : lastValue selected k = some v) :
    ∀ w, (k, w) ∈ selected → w ≤ v := by
  induction selected with
  | nil => simp [lastValue] at hl
  | cons p rest ih =>
    obtain ⟨hpl, hrest⟩ := List.pairwise_cons.mp h
    simp only [lastValue] at hl
    cases hrec : lastValue rest k with
    | some u =>
      rw [hrec] at hl
      injection hl with hu
      subst hu
      intro w hw
      rcases List.mem_cons.mp hw with rfl | hw'
      · exact le_of_lt (hpl _ (lastValue_mem _ _ _ hrec))
      · exact ih hrest hrec w hw'
    | none =>
      rw [hrec] at hl
      by_cases hp : p.1 = k
      · rw [if_pos hp] at hl
        injection hl with hv
        intro w hw
        rcases List.mem_cons.mp hw with rfl | hw'
        · exact le_of_eq hv
        · exfalso
          exact ((lastValue_eq_none_iff rest k).mp hrec)
            (List.mem_map.mpr ⟨(k, w), hw', rfl⟩)
      · rw [if_neg hp] at hl
        cases hl

/-- C3: the deduplicated series has pairwise-distinct calendar days, covers
exactly the days present among the selected candidates, and — when the
candidate list is sorted by path with distinct paths, as `_list_tiffs`
guarantees — the path kept for a day is the lexicographically last path
among the candidates of that day. -/
theorem dedupe_by_date_lex_last (selected : List (ℤ × String))
    (hpaths : List.Pairwise (fun a b => a.2 < b.2) selected) :
    ((dedupe_by_date selected).map Prod.fst).Nodup ∧
    (∀ d, d ∈ (dedupe_by_date selected).map Prod.fst ↔
      d ∈ selected.map Prod.fst) ∧
    (∀ d p, (d, p) ∈ dedupe_by_date selected →
      (d, p) ∈ selected ∧ ∀ q, (d, q) ∈ selected → q ≤ p) := by
  refine ⟨nodupKeys_dedupe selected, fun d => keys_dedupe_iff selected d, ?_⟩
  intro d p hmem
  have hlast := (mem_dedupe_iff_lastValue selected d p).mp hmem
  exact ⟨lastValue_mem _ _ _ hlast, lastValue_max selected hpaths d p hlast⟩

/-- C3: witness instantiating `dedupe_by_date_lex_last` on a concrete
candidate list with one duplicated day. -/
theorem dedupe_by_date_lex_last_witness :
    (((0 : ℤ), "b") ∈ ([((0 : ℤ), "a"), (0, "b"), (1, "c")] : List (ℤ × String))) ∧
    ("a" : String) ≤ "b" := by
  have hab : ("a" : String) < "b" := by rw [String.lt_iff_toList_lt]; decide
  have hac : ("a" : String) < "c" := by rw [String.lt_iff_toList_lt]; decide
  have hbc : ("b" : String) < "c" := by rw [String.lt_iff_toList_lt]; decide
  have hpw : List.Pairwise (fun a b : ℤ × String => a.2 < b.2)
      [((0 : ℤ), "a"), (0, "b"), (1, "c")] := by
    refine List.Pairwise.cons ?_ (List.Pairwise.cons ?_
      (List.Pairwise.cons (fun b hb => absurd hb (List.not_mem_nil b))
        List.Pairwise.nil))
    · intro b hb
      rcases List.mem_cons.mp hb with rfl | hb'
      · exact hab
      · rcases List.mem_singleton.mp hb' with rfl
        exact hac
    · intro b hb
      rcases List.mem_singleton.mp hb with rfl
      exact hbc
  have h := (dedupe_by_date_lex_last
    [((0 : ℤ), "a"), (0, "b"), (1, "c")] hpw).2.2 0 "b" (by decide)
  exact ⟨h.1, h.2 "a" (by decide)⟩

/-- Embedding of the window coercion of `make_grafik` (src/graph.py lines
233-234): any lookback other than 7, 15 or 30 becomes 30. -/
def coerce_lookback (w : ℤ) : ℤ :=
  if w = 7 ∨ w = 15 ∨ w = 30 then w else 30

/-- Embedding of the date filter of `make_grafik` (lines 254-262): keep the
candidates whose parsed day lies in `[end - (window - 1), end]`; files whose
name yields no date were already skipped and are not among the candidates. -/
def selectWindow (endD w : ℤ) (cands : List (ℤ × String)) :
    List (ℤ × String) :=
  cands.filter fun p =>
    !(decide (endD < p.1) || decide (p.1 < endD - (coerce_lookback w - 1)))

/-- Embedding of the series assembly of `make_grafik` (lines 254-267):
window filter followed by `_dedupe_by_date`. -/
def assembleSeries (endD w : ℤ) (cands : List (ℤ × String)) :
    List (ℤ × String) :=
  dedupe_by_date (selectWindow endD w cands)

/-- C4: the assembled series has strictly increasing days, every day lies in
the inclusive window `[end - (w' - 1), end]` for the coerced lookback `w'`,
and a lookback outside the 7/15/30 menu is coerced to 30. -/
theorem assembleSeries_window (endD w : ℤ) (cands : List (ℤ × String)) :
    List.Pairwise (fun a b => a.1 < b.1) (assembleSeries endD w cands) ∧
    (∀ p ∈ assembleSeries endD w cands,
      endD - (coerce_lookback w - 1) ≤ p.1 ∧ p.1 ≤ endD) ∧
    (w ≠ 7 → w ≠ 15 → w ≠ 30 → coerce_lookback w = 30) := by
  refine ⟨pairwise_lt_dedupe _, ?_, ?_⟩
  · rintro ⟨d, s⟩ hmem
    have hlast := (mem_dedupe_iff_lastValue _ d s).mp hmem
    have hsel : (d, s) ∈ selectWindow endD w cands :=
      lastValue_mem _ _ _ hlast
    have hpred := List.of_mem_filter hsel
    simp only [Bool.not_eq_true', Bool.or_eq_false_iff, decide_eq_false_iff_not,
      not_lt] at hpred
    exact ⟨hpred.2, hpred.1⟩
  · intro h7 h15 h30
    simp [coerce_lookback, h7, h15, h30]

/-- C4: witness instantiating `assembleSeries_window` on a concrete
candidate list. -/
theorem assembleSeries_window_witness :
    List.Pairwise (fun a b => a.1 < b.1)
      (assembleSeries 10 7 [((4 : ℤ), "a"), (9, "b"), (4, "c")]) ∧
    ((10 : ℤ) - (coerce_lookback 7 - 1) ≤ 4 ∧ (4 : ℤ) ≤ 10) := by
  have h := assembleSeries_window 10 7 [((4 : ℤ), "a"), (9, "b"), (4, "c")]
  exact ⟨h.1, h.2.1 (4, "c") (by decide)⟩

/-!
Embedding of the CRS fallback logic: `_srs_axis` in src/rasterimage.py
(lines 56-62, with `fallback_epsg=3857` at its call sites 205 and 227) and
the contrasting check in `make_grafik` (src/graph.py lines 240-243), which
raises when the boundary layer has no spatial reference.  A CRS is modelled
by its EPSG code; `none` stands for a layer without an identifiable CRS.
-/

/-- Embedding of `_srs_axis` (src/rasterimage.py): an absent spatial
reference is replaced by the fallback EPSG code when one is supplied (the
axis-mapping strategy has no effect on which CRS is used). -/
def srs_axis (srs : Option ℤ) (fallback : Option ℤ) : Option ℤ :=
  match srs with
  | some s => some s
  | none => fallback

/-- Boundary-layer CRS resolution in `make_screens` and `render_one`
(src/rasterimage.py lines 205 and 227): fallback EPSG 3857. -/
def screens_boundary_srs (layerSrs : Option ℤ) : Option ℤ :=
  srs_axis layerSrs (some 3857)

/-- Boundary-layer CRS resolution in `make_grafik` (src/graph.py lines
240-243): a missing spatial reference raises a `RuntimeError`. -/
def grafik_vec_srs (layerSrs : Option ℤ) : Except String ℤ :=
  match layerSrs with
  | none => Except.error "MINTAQA_SHP has no spatial reference"
  | some s => Except.ok s

/-- C7: counterexample. The time-series pipeline (`make_grafik`) fails with
an error on a boundary layer without CRS instead of substituting the Web
Mercator fallback and proceeding with extraction. -/
theorem c7_counterexample :
    grafik_vec_srs none =
      Except.error "MINTAQA_SHP has no spatial reference" := rfl

/-- C7 (amended): for a boundary layer without identifiable CRS, the
map-rendering pipeline substitutes EPSG 3857 and proceeds, while the
time-series (extraction) pipeline raises an error. -/
theorem c7_crs_fallback (s : Option ℤ) (h : s = none) :
    screens_boundary_srs s = some 3857 ∧
    grafik_vec_srs s =
      Except.error "MINTAQA_SHP has no spatial reference" := by
  subst h
  exact ⟨rfl, rfl⟩

/-- C7: witness instantiating `c7_crs_fallback` at the concrete input. -/
theorem c7_crs_fallback_witness :
    screens_boundary_srs none = some 3857 ∧
    grafik_vec_srs none =
      Except.error "MINTAQA_SHP has no spatial reference" :=
  c7_crs_fallback none rfl

/-!
Embedding of the no-data overlay of `make_screens` (src/rasterimage.py):
`zero_mask = (arr == 0.0)` (line 173), `zero_layer = np.where(zero_mask, 1,
0)` (line 200), drawn above the colour layer by `render_one` (lines
222-223).  The raster is modelled as a flat list of samples.
-/

/-- Embedding of `zero_mask = (arr == 0.0)`: true exactly at the cells whose
raw sample equals 0.0 (a NaN sample compares unequal to 0.0). -/
def zero_mask (arr : List FVal) : List Bool :=
  arr.map (fun x => decide (x = FVal.fin 0))

/-- Embedding of `zero_layer = np.where(zero_mask, 1, 0)`. -/
def zero_layer (arr : List FVal) : List ℕ :=
  (zero_mask arr).map (fun b => if b then 1 else 0)

/-- Modelled from the claim's words (not from the source), for comparison
with `zero_layer`: a mask set exactly at the cells equal to the raster's
declared no-data sentinel. -/
def sentinelMask (nodata : ℚ) (arr : List FVal) : List ℕ :=
  arr.map (fun x => if x = FVal.fin nodata then 1 else 0)

/-- C8: counterexample. With a declared no-data sentinel of -9999, the
rendered overlay marks the 0.0 cell and not the sentinel cell, so it differs
from the mask the claim describes. -/
theorem c8_counterexample :
    zero_layer [FVal.fin (-9999), FVal.fin 0, FVal.fin 5] = [0, 1, 0] ∧
    sentinelMask (-9999) [FVal.fin (-9999), FVal.fin 0, FVal.fin 5]
      = [1, 0, 0] ∧
    zero_layer [FVal.fin (-9999), FVal.fin 0, FVal.fin 5] ≠
      sentinelMask (-9999) [FVal.fin (-9999), FVal.fin 0, FVal.fin 5] := by
  refine ⟨by decide, by decide, by decide⟩

/-- C8 (amended): in both render modes the overlay layer is set exactly at
the cells whose raw sample equals 0.0, independently of the raster's
declared no-data sentinel. -/
theorem c8_zero_layer_exact (arr : List FVal) (i : ℕ) (h : i < arr.length) :
    (zero_layer arr).getD i 0 = 1 ↔ arr.getD i FVal.nan = FVal.fin 0 := by
  induction arr generalizing i with
  | nil => simp at h
  | cons x rest ih =>
    cases i with
    | zero =>
      by_cases hx : x = FVal.fin 0
      · simp [zero_layer, zero_mask, hx]
      · simp [zero_layer, zero_mask, hx]
    | succ n =>
      have hn : n < rest.length := by simpa using h
      simpa [zero_layer, zero_mask] using ih n hn

/-- C8: witness instantiating `c8_zero_layer_exact` at a concrete cell. -/
theorem c8_zero_layer_exact_witness :
    (zero_layer [FVal.fin 0, FVal.fin 3]).getD 0 0 = 1 ↔
      [FVal.fin 0, FVal.fin 3].getD 0 FVal.nan = FVal.fin 0 :=
  c8_zero_layer_exact [FVal.fin 0, FVal.fin 3] 0 (by decide)

/-!
Embedding of the x-axis tick policy of `_build_chart_png` (src/graph.py
lines 209-215): window 7 places the ticks at the series dates
(`ax.set_xticks(dts)`), window 15 uses a day locator with interval 2, any
other window uses an automatic locator asking for 6 to 15 ticks.
-/

/-- The tick rule chosen for the chart's x axis. -/
inductive TickRule : Type
  | explicitTicks : List ℤ → TickRule
  | dayInterval : ℕ → TickRule
  | autoTicks : ℕ → ℕ → TickRule
  deriving DecidableEq, Repr

/-- Embedding of the tick dispatch of `_build_chart_png` on the series
dates `dts`. -/
def choose_tick_rule (lookback : ℤ) (dts : List ℤ) : TickRule :=
  if lookback = 7 then TickRule.explicitTicks dts
  else if lookback = 15 then TickRule.dayInterval 2
  else TickRule.autoTicks 6 15

/-- Modelled from the claim's words (not from the source): the list of every
calendar day of the lookback window ending at `endD`. -/
def windowDays (endD w : ℤ) : List ℤ :=
  (List.range w.toNat).map (fun i => endD - (w - 1) + i)

/-- C9: counterexample. With window 7 and raster files for only two of the
seven window days, the assembled series has two dates and the chart places
exactly those two ticks, not one tick per day of the window (seven). -/
theorem c9_counterexample :
    choose_tick_rule 7 ((assembleSeries 6 7
        [((0 : ℤ), "a"), (6, "b")]).map Prod.fst)
      = TickRule.explicitTicks [0, 6] ∧
    (windowDays 6 7).length = 7 ∧ ([0, 6] : List ℤ).length = 2 := by
  refine ⟨by decide, by decide, by decide⟩

/-- C9 (amended): window 7 puts one tick at each date actually present in
the series (one per day only when every window day has data), window 15 uses
a two-day tick interval, and any other window uses the automatic locator
targeting between 6 and 15 ticks. -/
theorem c9_tick_policy (w : ℤ) (dts : List ℤ) :
    choose_tick_rule 7 dts = TickRule.explicitTicks dts ∧
    choose_tick_rule 15 dts = TickRule.dayInterval 2 ∧
    (w ≠ 7 → w ≠ 15 → choose_tick_rule w dts = TickRule.autoTicks 6 15) := by
  refine ⟨rfl, rfl, ?_⟩
  intro h7 h15
  simp [choose_tick_rule, h7, h15]

/-- C9: witness instantiating `c9_tick_policy` at window 30. -/
theorem c9_tick_policy_witness :
    choose_tick_rule 7 [0, 1] = TickRule.explicitTicks [0, 1] ∧
    choose_tick_rule 30 [0, 1] = TickRule.autoTicks 6 15 := by
  have h := c9_tick_policy 30 [0, 1]
  exact ⟨(c9_tick_policy 30 [0, 1]).1, h.2.2 (by decide) (by decide)⟩

/-!
Embedding of the percentile-clipped colour range of `make_screens`
(src/rasterimage.py lines 171-185): zero and non-finite cells are excluded,
the 2nd and 98th percentiles (numpy's linear-interpolation method) give the
clip range, an empty remainder gives the default range [0, 1], a degenerate
range is widened by 1e-12, and the raster is normalized with
`np.clip((arr - vmin) / (vmax - vmin), 0, 1)`.
-/

/-- Floor of a non-negative rational, computed as a natural number (the
virtual index `floor(pos)` of numpy's percentile interpolation). -/
def ratIndex (q : ℚ) : ℕ := q.num.toNat / q.den

theorem ratIndex_eq_floor (q : ℚ) (hq : 0 ≤ q) : (ratIndex q : ℤ) = ⌊q⌋ := by
  rw [Rat.floor_def]
  have hnum : 0 ≤ q.num := Rat.num_nonneg.mpr hq
  rw [ratIndex, Int.ofNat_tdiv, Int.toNat_of_nonneg hnum,
    Int.tdiv_eq_ediv hnum (Int.natCast_nonneg _)]

/-- Embedding of `np.percentile(v, q)` with the default linear-interpolation
method: sort the values, take the virtual position `q * (n - 1) / 100`, and
interpolate linearly between the two neighbouring order statistics. -/
def percentile (l : List ℚ) (q : ℚ) : ℚ :=
  let s := List.insertionSort (· ≤ ·) l
  let n := s.length
  let pos := q * ((n : ℚ) - 1) / 100
  let i := ratIndex pos
  if i + 1 < n then
    s.getD i 0 + (pos - (i : ℚ)) * (s.getD (i + 1) 0 - s.getD i 0)
  else s.getD i 0

theorem sorted_getD_mono (s : List ℚ) (hs : List.Sorted (· ≤ ·) s)
    (a b : ℕ) (hab : a ≤ b) (hb : b < s.length) :
    s.getD a 0 ≤ s.getD b 0 := by
  have ha : a < s.length := lt_of_le_of_lt hab hb
  have h1 : s.getD a 0 = s.get ⟨a, ha⟩ := by
    simp [List.getD_eq_getElem?_getD, List.getElem?_eq_getElem ha,
      List.get_eq_getElem]
  have h2 : s.getD b 0 = s.get ⟨b, hb⟩ := by
    simp [List.getD_eq_getElem?_getD, List.getElem?_eq_getElem hb,
      List.get_eq_getElem]
  rw [h1, h2]
  exact hs.rel_get_of_le hab

theorem percentile_mono (l : List ℚ) (hl : l ≠ []) (q₁ q₂ : ℚ)
    (h0 : 0 ≤ q₁) (h12 : q₁ ≤ q₂) (h100 : q₂ ≤ 100) :
    percentile l q₁ ≤ percentile l q₂ := by
  rw [percentile, percentile]
  set s := List.insertionSort (· ≤ ·) l with hs_def
  have hs : List.Sorted (· ≤ ·) s := List.sorted_insertionSort _ l
  have hlen : s.length = l.length := (List.perm_insertionSort _ l).length_eq
  have hn1 : 1 ≤ s.length := by
    rw [hlen]
    exact List.length_pos.mpr hl
  set n := s.length with hn_def
  have hnQ : (1 : ℚ) ≤ (n : ℚ) := by exact_mod_cast hn1
  have hnn : (0 : ℚ) ≤ (n : ℚ) - 1 := by linarith
  set pos₁ := q₁ * ((n : ℚ) - 1) / 100 with hpos₁
  set pos₂ := q₂ * ((n : ℚ) - 1) / 100 with hpos₂
  have hp₁0 : 0 ≤ pos₁ := by positivity
  have hp₂0 : 0 ≤ pos₂ := le_trans hp₁0 (by

    apply div_le_div_of_nonneg_right ?_ (by norm_num)
    exact mul_le_mul_of_nonneg_right h12 hnn)
  have hple : pos₁ ≤ pos₂ := by
    apply div_le_div_of_nonneg_right ?_ (by norm_num)
    exact mul_le_mul_of_nonneg_right h12 hnn
  have hp₂max : pos₂ ≤ (n : ℚ) - 1 := by
    rw [hpos₂, div_le_iff₀ (by norm_num : (0 : ℚ) < 100)]
    nlinarith
  set i₁ := ratIndex pos₁ with hi₁_def
  set i₂ := ratIndex pos₂ with hi₂_def
  have hfl₁ : (i₁ : ℤ) = ⌊pos₁⌋ := ratIndex_eq_floor pos₁ hp₁0
  have hfl₂ : (i₂ : ℤ) = ⌊pos₂⌋ := ratIndex_eq_floor pos₂ hp₂0
  have hi₁le : (i₁ : ℚ) ≤ pos₁ := by
    have := Int.floor_le pos₁
    rw [← hfl₁] at this
    exact_mod_cast this
  have hi₂le : (i₂ : ℚ) ≤ pos₂ := by
    have := Int.floor_le pos₂
    rw [← hfl₂] at this
    exact_mod_cast this
  have hi₁lt : pos₁ < (i₁ : ℚ) + 1 := by
    have := Int.lt_floor_add_one pos₁
    rw [← hfl₁] at this
    exact_mod_cast this
  have hi₂lt : pos₂ < (i₂ : ℚ) + 1 := by
    have := Int.lt_floor_add_one pos₂
    rw [← hfl₂] at this
    exact_mod_cast this
  have hi12 : i₁ ≤ i₂ := by
    have h := Int.floor_le_floor (α := ℚ) hple
    rw [← hfl₁, ← hfl₂] at h
    exact_mod_cast h
  have hi₂max : i₂ ≤ n - 1 := by
    have hcast : ((n - 1 : ℕ) : ℚ) = (n : ℚ) - 1 := by
      have : (1 : ℕ) ≤ n := hn1
      push_cast [Nat.cast_sub this]
      ring
    have h1 : (i₂ : ℤ) ≤ ⌊((n - 1 : ℕ) : ℚ)⌋ := by
      rw [hfl₂]
      exact Int.floor_le_floor (by rw [hcast]; exact hp₂max)
    rw [Int.floor_natCast] at h1
    exact_mod_cast h1
  have hi₂n : i₂ < n := lt_of_le_of_lt hi₂max (by omega)
  rcases Nat.lt_or_ge i₁ i₂ with hlt | hge
  · -- i₁ < i₂ : interpolate up to the right neighbour, then walk the order
    -- statistics
    have hi₁1n : i₁ + 1 < n := by omega
    rw [if_pos hi₁1n]
    have hlo_hi : s.getD i₁ 0 ≤ s.getD (i₁ + 1) 0 :=
      sorted_getD_mono s hs i₁ (i₁ + 1) (by omega) hi₁1n
    have hstep1 : s.getD i₁ 0 + (pos₁ - (i₁ : ℚ)) * (s.getD (i₁ + 1) 0 - s.getD i₁ 0)
        ≤ s.getD (i₁ + 1) 0 := by nlinarith
    have hstep2 : s.getD (i₁ + 1) 0 ≤ s.getD i₂ 0 :=
      sorted_getD_mono s hs (i₁ + 1) i₂ (by omega) hi₂n
    by_cases h2n : i₂ + 1 < n
    · rw [if_pos h2n]
      have hlo_hi₂ : s.getD i₂ 0 ≤ s.getD (i₂ + 1) 0 :=
        sorted_getD_mono s hs i₂ (i₂ + 1) (by omega) h2n
      nlinarith
    · rw [if_neg h2n]
      linarith
  · -- equal indices (i₂ ≤ i₁ together with monotonicity of the floor)
    have heq : i₁ = i₂ := le_antisymm hi12 hge
    rw [heq] at hi₁le hi₁lt ⊢
    by_cases h1n : i₂ + 1 < n
    · rw [if_pos h1n, if_pos h1n]
      have hlo_hi : s.getD i₂ 0 ≤ s.getD (i₂ + 1) 0 :=
        sorted_getD_mono s hs i₂ (i₂ + 1) (by omega) h1n
      nlinarith
    · rw [if_neg h1n, if_neg h1n]

/-- The cells kept by `make_screens` for the percentile range (line 175):
finite (`np.isfinite`) and not equal to 0.0. -/
def validValues (arr : List FVal) : List ℚ :=
  arr.filterMap fun x =>
    match x with
    | FVal.fin q => if q = 0 then none else some q
    | _ => none

/-- Embedding of the clip-range computation of `make_screens` (lines
176-183): default [0, 1] when no valid cells remain, otherwise the 2nd and
98th percentiles, the upper end widened by 1e-12 when the two coincide. -/
def computeRange (arr : List FVal) : ℚ × ℚ :=
  let v := validValues arr
  if v = [] then (0, 1)
  else
    let vmin := percentile v 2
    let vmax := percentile v 98
    if vmax = vmin then (vmin, vmin + 1 / 10 ^ 12) else (vmin, vmax)

/-- `np.clip(x, 0.0, 1.0)` on a finite value. -/
def clip01 (x : ℚ) : ℚ := max 0 (min x 1)

/-- One cell of `np.clip((arr - vmin) / (vmax - vmin), 0.0, 1.0)` under
IEEE semantics, for the positive-width ranges `computeRange` produces:
NaN propagates through the arithmetic and through `np.clip`, +inf maps to
the upper clip bound, -inf to the lower one. -/
def normalizeCell (vmin vmax : ℚ) : FVal → FVal
  | FVal.nan => FVal.nan
  | FVal.inf => FVal.fin 1
  | FVal.ninf => FVal.fin 0
  | FVal.fin q => FVal.fin (clip01 ((q - vmin) / (vmax - vmin)))

/-- Embedding of `norm = np.clip((arr - vmin_clip) / (vmax_clip -
vmin_clip), 0.0, 1.0)` (line 185). -/
def normalizeArr (arr : List FVal) : List FVal :=
  arr.map (normalizeCell (computeRange arr).1 (computeRange arr).2)

/-- Decidable test that a sample is a finite value inside [0, 1]. -/
def inUnitB : FVal → Bool
  | FVal.fin q => decide (0 ≤ q ∧ q ≤ 1)
  | _ => false

/-- C5: counterexample. A raster with a NaN cell (and a 0.0 cell, so no
valid cells remain) normalizes the NaN cell to NaN, which is not a value in
[0, 1]: the normalized array does not lie in [0, 1] at every cell. -/
theorem c5_counterexample :
    normalizeArr [FVal.nan, FVal.fin 0] = [FVal.nan, FVal.fin 0] ∧
    ((normalizeArr [FVal.nan, FVal.fin 0]).all inUnitB) = false := by
  have hval : validValues [FVal.nan, FVal.fin 0] = [] := by decide
  have h1 : normalizeArr [FVal.nan, FVal.fin 0] = [FVal.nan, FVal.fin 0] := by
    norm_num [normalizeArr, computeRange, hval, normalizeCell, clip01]
  exact ⟨h1, by rw [h1]; decide⟩

/-- C5 (amended): `computeRange` always returns `vmin ≤ vmax` (default
[0, 1] on an empty valid set, epsilon-widened on coinciding percentiles),
and the normalized array lies in [0, 1] at every cell whose raw sample is
not NaN; a NaN cell propagates NaN. -/
theorem c5_range_normalize (arr : List FVal) :
    (computeRange arr).1 ≤ (computeRange arr).2 ∧
    (validValues arr = [] → computeRange arr = (0, 1)) ∧
    (∀ v ∈ normalizeArr arr, v ≠ FVal.nan → inUnitB v = true) := by
  refine ⟨?_, ?_, ?_⟩
  · by_cases hv : validValues arr = []
    · simp [computeRange, hv]
    · have hm := percentile_mono (validValues arr) hv 2 98
        (by norm_num) (by norm_num) (by norm_num)
      by_cases he : percentile (validValues arr) 98
          = percentile (validValues arr) 2
      · simp only [computeRange, if_neg hv, if_pos he]
        norm_num
      · simp only [computeRange, if_neg hv, if_neg he]
        exact hm
  · intro h
    simp [computeRange, h]
  · intro v hv hnan
    rw [normalizeArr] at hv
    obtain ⟨x, hx, hveq⟩ := List.mem_map.mp hv
    cases x with
    | nan => exact absurd hveq.symm (by simpa [normalizeCell] using hnan)
    | inf =>
      rw [← hveq]
      simp [normalizeCell, inUnitB]
    | ninf =>
      rw [← hveq]
      simp [normalizeCell, inUnitB]
    | fin q =>
      rw [← hveq]
      simp only [normalizeCell, inUnitB, decide_eq_true_eq]
      constructor
      · exact le_max_left 0 _
      · exact max_le (by norm_num) (min_le_right _ 1)

/-- C5: witness instantiating `c5_range_normalize` on concrete rasters. -/
theorem c5_range_normalize_witness :
    (computeRange [FVal.inf, FVal.fin 0]).1
      ≤ (computeRange [FVal.inf, FVal.fin 0]).2 ∧
    computeRange [FVal.nan] = (0, 1) ∧
    inUnitB (FVal.fin 1) = true := by
  have h := c5_range_normalize [FVal.inf, FVal.fin 0]
  have hval : validValues [FVal.inf, FVal.fin 0] = [] := by decide
  have harr : normalizeArr [FVal.inf, FVal.fin 0]
      = [FVal.fin 1, FVal.fin 0] := by
    norm_num [normalizeArr, computeRange, hval, normalizeCell, clip01]
  refine ⟨h.1, (c5_range_normalize [FVal.nan]).2.1 (by decide), ?_⟩
  exact h.2.2 (FVal.fin 1) (by rw [harr]; exact List.mem_cons_self _ _)
    (by decide)

/-!
Embedding of `_smooth_curve` (src/graph.py lines 132-187), restricted to
the x samples it returns: sort the points by x (`np.argsort` is stable, as
is insertion sort), merge runs of equal x by averaging their y values, and
resample `int(max(50, n_points))` evenly spaced x positions between the
smallest and largest remaining x (`np.linspace(x.min(), x.max(), ...)`).
Every branch of the spline/polynomial fallback chain returns the same
`x_new`, so the x samples are independent of which smoother succeeds.
-/

/-- Sorting of the points by x (`np.argsort` over the date numbers). -/
def sortByX (pts : List (ℚ × ℚ)) : List (ℚ × ℚ) :=
  List.insertionSort (fun a b => a.1 ≤ b.1) pts

/-- The run-merging loop of `_smooth_curve` (lines 140-154): group adjacent
equal x values, emitting the mean of the accumulated y values. -/
def mergeLoop : ℚ → List ℚ → List (ℚ × ℚ) → List (ℚ × ℚ)
  | last, acc, [] => [(last, meanQ acc)]
  | last, acc, (x, y) :: rest =>
    if x = last then mergeLoop last (acc ++ [y]) rest
    else (last, meanQ acc) :: mergeLoop x [y] rest

/-- The deduplicated (uniq_x, uniq_y) arrays of `_smooth_curve`. -/
def smoothUniq (pts : List (ℚ × ℚ)) : List (ℚ × ℚ) :=
  match sortByX pts with
  | [] => []
  | (x, y) :: rest => mergeLoop x [y] rest

/-- `np.min` of a non-empty array (0 on the empty array). -/
def arrMin : List ℚ → ℚ
  | [] => 0
  | x :: xs => xs.foldl min x

/-- `np.max` of a non-empty array (0 on the empty array). -/
def arrMax : List ℚ → ℚ
  | [] => 0
  | x :: xs => xs.foldl max x

/-- `np.linspace(a, b, m)`: `m` evenly spaced samples from `a` to `b`. -/
def linspaceQ (a b : ℚ) (m : ℕ) : List ℚ :=
  (List.range m).map (fun (i : ℕ) => a + (i : ℚ) * (b - a) / ((m : ℚ) - 1))

/-- The x samples returned by `_smooth_curve` for a requested output count:
the deduplicated x values themselves when at most one remains, otherwise
`np.linspace(x.min(), x.max(), int(max(50, n_points)))`. -/
def smooth_curve_xs (pts : List (ℚ × ℚ)) (nPoints : ℤ) : List ℚ :=
  let xs := (smoothUniq pts).map Prod.fst
  if xs.length ≤ 1 then xs
  else linspaceQ (arrMin xs) (arrMax xs) (max 50 nPoints).toNat

theorem mergeLoop_map_fst : ∀ (l : List (ℚ × ℚ)) (last : ℚ) (acc : List ℚ),
    (mergeLoop last acc l).map Prod.fst
      = List.destutter' (· ≠ ·) last (l.map Prod.fst) := by
  intro l
  induction l with
  | nil => intro last acc; simp [mergeLoop, List.destutter'_nil]
  | cons p rest ih =>
    intro last acc
    obtain ⟨x, y⟩ := p
    simp only [mergeLoop, List.map_cons]
    by_cases h : x = last
    · rw [if_pos h, ih]
      exact (List.destutter'_cons_neg (rest.map Prod.fst)
        (not_not_intro h.symm)).symm
    · rw [if_neg h]
      simp only [List.map_cons, ih]
      exact (List.destutter'_cons_pos (rest.map Prod.fst) (Ne.symm h)).symm

theorem destutter'_head (l : List ℚ) (a : ℚ) :
    ∃ t, List.destutter' (· ≠ ·) a l = a :: t := by
  induction l generalizing a with
  | nil => exact ⟨[], rfl⟩
  | cons b rest ih =>
    by_cases h : a ≠ b
    · exact ⟨List.destutter' (· ≠ ·) b rest, List.destutter'_cons_pos rest h⟩
    · obtain ⟨t, ht⟩ := ih a
      exact ⟨t, (List.destutter'_cons_neg rest h).trans ht⟩

theorem destutter'_getLast? (l : List ℚ) (a : ℚ) :
    (List.destutter' (· ≠ ·) a l).getLast? = (a :: l).getLast? := by
  induction l generalizing a with
  | nil => rfl
  | cons b rest ih =>
    by_cases h : a ≠ b
    · rw [List.destutter'_cons_pos rest h]
      obtain ⟨t, ht⟩ := destutter'_head rest b
      rw [List.getLast?_cons_cons, ht, List.getLast?_cons_cons, ← ht, ih]
    · rw [List.destutter'_cons_neg rest h, ih, List.getLast?_cons_cons,
        not_not.mp h]

theorem foldl_min_le (xs : List ℚ) : ∀ a : ℚ,
    xs.foldl min a ≤ a ∧ ∀ y ∈ xs, xs.foldl min a ≤ y := by
  induction xs with
  | nil => intro a; simp
  | cons x t ih =>
    intro a
    rw [List.foldl_cons]
    refine ⟨le_trans (ih (min a x)).1 (min_le_left a x), ?_⟩
    intro y hy
    rcases List.mem_cons.mp hy with rfl | hy'
    · exact le_trans (ih (min a y)).1 (min_le_right a y)
    · exact (ih (min a x)).2 y hy'

theorem foldl_min_mem (xs : List ℚ) : ∀ a : ℚ,
    xs.foldl min a = a ∨ xs.foldl min a ∈ xs := by
  induction xs with
  | nil => intro a; exact Or.inl rfl
  | cons x t ih =>
    intro a
    rw [List.foldl_cons]
    rcases ih (min a x) with heq | hmem
    · rcases min_choice a x with hax | hax
      · exact Or.inl (heq.trans hax)
      · exact Or.inr (by rw [heq, hax]; exact List.mem_cons_self x t)
    · exact Or.inr (List.mem_cons_of_mem x hmem)

theorem foldl_max_le (xs : List ℚ) : ∀ a : ℚ,
    a ≤ xs.foldl max a ∧ ∀ y ∈ xs, y ≤ xs.foldl max a := by
  induction xs with
  | nil => intro a; simp
  | cons x t ih =>
    intro a
    rw [List.foldl_cons]
    refine ⟨le_trans (le_max_left a x) (ih (max a x)).1, ?_⟩
    intro y hy
    rcases List.mem_cons.mp hy with rfl | hy'
    · exact le_trans (le_max_right a y) (ih (max a y)).1
    · exact (ih (max a x)).2 y hy'

theorem foldl_max_mem (xs : List ℚ) : ∀ a : ℚ,
    xs.foldl max a = a ∨ xs.foldl max a ∈ xs := by
  induction xs with
  | nil => intro a; exact Or.inl rfl
  | cons x t ih =>
    intro a
    rw [List.foldl_cons]
    rcases ih (max a x) with heq | hmem
    · rcases max_choice a x with hax | hax
      · exact Or.inl (heq.trans hax)
      · exact Or.inr (by rw [heq, hax]; exact List.mem_cons_self x t)
    · exact Or.inr (List.mem_cons_of_mem x hmem)

theorem arrMin_spec (l : List ℚ) (hl : l ≠ []) :
    arrMin l ∈ l ∧ ∀ y ∈ l, arrMin l ≤ y := by
  cases l with
  | nil => exact absurd rfl hl
  | cons x xs =>
    rw [arrMin]
    constructor
    · rcases foldl_min_mem xs x with heq | hmem
      · rw [heq]; exact List.mem_cons_self x xs
      · exact List.mem_cons_of_mem x hmem
    · intro y hy
      rcases List.mem_cons.mp hy with rfl | hy'
      · exact (foldl_min_le xs y).1
      · exact (foldl_min_le xs x).2 y hy'

theorem arrMax_spec (l : List ℚ) (hl : l ≠ []) :
    arrMax l ∈ l ∧ ∀ y ∈ l, y ≤ arrMax l := by
  cases l with
  | nil => exact absurd rfl hl
  | cons x xs =>
    rw [arrMax]
    constructor
    · rcases foldl_max_mem xs x with heq | hmem
      · rw [heq]; exact List.mem_cons_self x xs
      · exact List.mem_cons_of_mem x hmem
    · intro y hy
      rcases List.mem_cons.mp hy with rfl | hy'
      · exact (foldl_max_le xs y).1
      · exact (foldl_max_le xs x).2 y hy'

theorem sorted_le_getLast? : ∀ l : List ℚ, List.Sorted (· ≤ ·) l →
    ∀ M, l.getLast? = some M → ∀ a ∈ l, a ≤ M := by
  intro l
  induction l with
  | nil => intro _ M hM a ha; exact absurd ha (List.not_mem_nil a)
  | cons x t ih =>
    intro hs M hM a ha
    cases t with
    | nil =>
      rcases List.mem_singleton.mp ha with rfl
      simp only [List.getLast?_singleton, Option.some.injEq] at hM
      exact le_of_eq hM
    | cons b t' =>
      rw [List.getLast?_cons_cons] at hM
      have hsx := List.sorted_cons.mp hs
      rcases List.mem_cons.mp ha with rfl | ha'
      · exact le_trans (hsx.1 b (List.mem_cons_self b t'))
          (ih hsx.2 M hM b (List.mem_cons_self b t'))
      · exact ih hsx.2 M hM a ha' 

/-- C10: with at least two distinct x values among the input points, the
smoother returns exactly `max(50, n)` x samples, evenly spaced between the
smallest and the largest input x (requested counts below 50 are raised to
the floor of 50). -/
theorem smooth_curve_linspace (pts : List (ℚ × ℚ)) (n : ℤ)
    (h : ∃ p ∈ pts, ∃ q ∈ pts, p.1 ≠ q.1) :
    (smooth_curve_xs pts n).length = (max 50 n).toNat ∧
    ∀ i, i < (max 50 n).toNat →
      (smooth_curve_xs pts n).getD i 0 =
        arrMin (pts.map Prod.fst)
          + i * (arrMax (pts.map Prod.fst) - arrMin (pts.map Prod.fst))
            / (((max 50 n).toNat : ℚ) - 1) := by
  obtain ⟨p, hp, q, hq, hpq⟩ := h
  have hne : pts ≠ [] := by
    intro hc
    rw [hc] at hp
    exact absurd hp (List.not_mem_nil p)
  have hperm : List.Perm (sortByX pts) pts := List.perm_insertionSort _ pts
  have hsorted : List.Sorted (fun a b : ℚ × ℚ => a.1 ≤ b.1) (sortByX pts) :=
    List.sorted_insertionSort _ pts
  cases hs : sortByX pts with
  | nil =>
    exfalso
    have hlen := hperm.length_eq
    rw [hs] at hlen
    exact hne (List.length_eq_zero.mp hlen.symm)
  | cons p₀ rest =>
    obtain ⟨x₀, y₀⟩ := p₀
    have huniq : smoothUniq pts = mergeLoop x₀ [y₀] rest := by
      rw [smoothUniq, hs]
    have hufst : (smoothUniq pts).map Prod.fst
        = List.destutter' (· ≠ ·) x₀ (rest.map Prod.fst) := by
      rw [huniq, mergeLoop_map_fst]
    obtain ⟨t, ht⟩ := destutter'_head (rest.map Prod.fst) x₀
    have hsxs : List.Sorted (· ≤ ·) ((sortByX pts).map Prod.fst) :=
      List.pairwise_map.mpr hsorted
    rw [hs, List.map_cons] at hsxs
    have hsub : ∀ z ∈ (smoothUniq pts).map Prod.fst,
        z ∈ x₀ :: rest.map Prod.fst := by
      rw [hufst]
      exact fun z hz =>
        (List.destutter'_sublist (rest.map Prod.fst) (· ≠ ·) x₀).subset hz
    have hx₀le : ∀ z ∈ x₀ :: rest.map Prod.fst, x₀ ≤ z := by
      intro z hz
      rcases List.mem_cons.mp hz with rfl | hz'
      · exact le_refl z
      · exact (List.sorted_cons.mp hsxs).1 z hz'
    have hlast : ((smoothUniq pts).map Prod.fst).getLast?
        = (x₀ :: rest.map Prod.fst).getLast? := by
      rw [hufst]
      exact destutter'_getLast? (rest.map Prod.fst) x₀
    obtain ⟨M, hM⟩ : ∃ M, (x₀ :: rest.map Prod.fst).getLast? = some M := by
      cases hgl : (x₀ :: rest.map Prod.fst).getLast? with
      | none =>
        exact absurd (List.getLast?_eq_none_iff.mp hgl) (List.cons_ne_nil _ _)
      | some M => exact ⟨M, rfl⟩
    have hMmem : M ∈ x₀ :: rest.map Prod.fst := List.mem_of_getLast?_eq_some hM
    have hMmax : ∀ z ∈ x₀ :: rest.map Prod.fst, z ≤ M :=
      fun z hz => sorted_le_getLast? _ hsxs M hM z hz
    have hune : (smoothUniq pts).map Prod.fst ≠ [] := by
      rw [hufst, ht]
      exact List.cons_ne_nil _ _
    have humin := arrMin_spec _ hune
    have humax := arrMax_spec _ hune
    have hx₀mem : x₀ ∈ (smoothUniq pts).map Prod.fst := by
      rw [hufst, ht]
      exact List.mem_cons_self _ _
    have hMmemu : M ∈ (smoothUniq pts).map Prod.fst :=
      List.mem_of_getLast?_eq_some (hlast.trans hM)
    have huminx : arrMin ((smoothUniq pts).map Prod.fst) = x₀ :=
      le_antisymm (humin.2 x₀ hx₀mem) (hx₀le _ (hsub _ humin.1))
    have humaxM : arrMax ((smoothUniq pts).map Prod.fst) = M :=
      le_antisymm (hMmax _ (hsub _ humax.1)) (humax.2 M hMmemu)
    have hperm2 : List.Perm ((x₀, y₀) :: rest) pts := by rw [← hs]; exact hperm
    have hpermfst : List.Perm (x₀ :: rest.map Prod.fst) (pts.map Prod.fst) := by
      have := hperm2.map Prod.fst
      simpa using this
    have hpne : pts.map Prod.fst ≠ [] := by
      intro hc
      exact hne (List.map_eq_nil_iff.mp hc)
    have hpmin := arrMin_spec _ hpne
    have hpmax := arrMax_spec _ hpne
    have hpminx : arrMin (pts.map Prod.fst) = x₀ := by
      apply le_antisymm
      · exact hpmin.2 x₀ (hpermfst.subset (List.mem_cons_self _ _))
      · exact hx₀le _ (hpermfst.mem_iff.mpr hpmin.1)
    have hpmaxM : arrMax (pts.map Prod.fst) = M := by
      apply le_antisymm
      · exact hMmax _ (hpermfst.mem_iff.mpr hpmax.1)
      · exact hpmax.2 M (hpermfst.subset hMmem)
    have hpmem : p.1 ∈ x₀ :: rest.map Prod.fst :=
      hpermfst.mem_iff.mpr (List.mem_map.mpr ⟨p, hp, rfl⟩)
    have hqmem : q.1 ∈ x₀ :: rest.map Prod.fst :=
      hpermfst.mem_iff.mpr (List.mem_map.mpr ⟨q, hq, rfl⟩)
    have hx₀M : x₀ ≠ M := by
      intro hEq
      have hMx : M = x₀ := hEq.symm
      have h1 : p.1 = x₀ := le_antisymm (hMx ▸ hMmax _ hpmem) (hx₀le _ hpmem)
      have h2 : q.1 = x₀ := le_antisymm (hMx ▸ hMmax _ hqmem) (hx₀le _ hqmem)
      exact hpq (h1.trans h2.symm)
    have htne : t ≠ [] := by
      intro hc
      rw [hc] at ht
      have h1 : ((smoothUniq pts).map Prod.fst).getLast? = some x₀ := by
        rw [hufst, ht]
        rfl
      have h2 := hlast.symm.trans h1
      rw [hM] at h2
      injection h2 with h3
      exact hx₀M h3.symm
    have hulen : ¬(((smoothUniq pts).map Prod.fst).length ≤ 1) := by
      rw [hufst, ht]
      simp only [List.length_cons]
      have := List.length_pos.mpr htne
      omega
    have hform : smooth_curve_xs pts n
        = linspaceQ x₀ M (max 50 n).toNat := by
      simp only [smooth_curve_xs]
      rw [if_neg hulen, huminx, humaxM]
    constructor
    · rw [hform]
      simp only [linspaceQ, List.length_map, List.length_range]
    · intro i hi
      rw [hform, hpminx, hpmaxM]
      simp only [linspaceQ, List.getD_eq_getElem?_getD, List.getElem?_map,
        List.getElem?_range hi, Option.map_some', Option.getD_some]

/-- C10: witness instantiating `smooth_curve_linspace` on two points with
distinct x values and a requested count of 4 (raised to 50). -/
theorem smooth_curve_linspace_witness :
    (smooth_curve_xs [((0 : ℚ), 1), (2, 3)] 4).length = (max (50 : ℤ) 4).toNat ∧
    (smooth_curve_xs [((0 : ℚ), 1), (2, 3)] 4).getD 0 0 =
      arrMin ([((0 : ℚ), 1), (2, 3)].map Prod.fst)
        + ((0 : ℕ) : ℚ) * (arrMax ([((0 : ℚ), 1), (2, 3)].map Prod.fst)
            - arrMin ([((0 : ℚ), 1), (2, 3)].map Prod.fst))
          / (((max (50 : ℤ) 4).toNat : ℚ) - 1) := by
  have h := smooth_curve_linspace [((0 : ℚ), 1), (2, 3)] 4 (by decide)
  exact ⟨h.1, h.2 0 (by decide)⟩
